import Mathlib

/-!
Verification of `create_1c_xml.py`: a script that assembles a 1C data-processing
XML document from up to three source-text fragments, escapes the module text,
generates a processing identifier and renders a fixed XML template.

Strings are modelled as `List Char` (Python `str` is a sequence of code points).
-/

/-- Embedding of Python `str.replace(pat, rep)`: scan left to right, replacing
each non-overlapping occurrence of `pat` by `rep`.  The empty-pattern case
never arises in the script (all patterns are single characters). -/
def pyReplace (pat rep : List Char) : List Char → List Char
  | [] => []
  | c :: rest =>
    if h : pat ≠ [] ∧ pat.isPrefixOf (c :: rest) then
      rep ++ pyReplace pat rep ((c :: rest).drop pat.length)
    else
      c :: pyReplace pat rep rest
termination_by s => s.length
decreasing_by
  · simp only [List.length_drop, List.length_cons]
    have hp : 1 ≤ pat.length := by
      cases pat with
      | nil => exact absurd rfl h.1
      | cons a as => simp
    omega
  · simp

/-- `escape_xml` from the script (lines 10–18): replace `&`, then `<`, then `>`
by their XML entities; quotes are left as they are. -/
def escape_xml (text : List Char) : List Char :=
  pyReplace ['>'] ("&gt;".toList)
    (pyReplace ['<'] ("&lt;".toList)
      (pyReplace ['&'] ("&amp;".toList) text))

/-- Character-wise escaping map, written from the spec's words: `&` becomes
`&amp;`, `<` becomes `&lt;`, `>` becomes `&gt;`, every other character
(quotation marks included) passes through unchanged.  Used to compare the
source's three-pass `escape_xml` against the spec's description. -/
def escapeCharSpec (c : Char) : List Char :=
  if c = '&' then "&amp;".toList
  else if c = '<' then "&lt;".toList
  else if c = '>' then "&gt;".toList
  else [c]

theorem pyReplace_single (c : Char) (rep : List Char) (s : List Char) :
    pyReplace [c] rep s = s.flatMap (fun x => if x = c then rep else [x]) := by
  induction s with
  | nil => simp [pyReplace]
  | cons x rest ih =>
    rw [pyReplace]
    by_cases hx : x = c
    · subst hx
      have hpre : [x].isPrefixOf (x :: rest) = true := by
        simp [List.isPrefixOf]
      simp [hpre, ih]
    · have hpre : [c].isPrefixOf (x :: rest) = false := by
        simp [List.isPrefixOf]
        exact fun hcx => absurd hcx.symm hx
      simp [hpre, ih, hx]

theorem escape_xml_eq_flatMap (s : List Char) :
    escape_xml s = s.flatMap escapeCharSpec := by
  unfold escape_xml
  rw [pyReplace_single, pyReplace_single, pyReplace_single]
  induction s with
  | nil => simp
  | cons x rest ih =>
    simp only [List.flatMap_cons, List.flatMap_append]
    rw [ih]
    congr 1
    by_cases h1 : x = '&'
    · subst h1; decide
    · by_cases h2 : x = '<'
      · subst h2; decide
      · by_cases h3 : x = '>'
        · subst h3; decide
        · simp [escapeCharSpec, h1, h2, h3]

/-- C3: the XML escaper replaces every `&` by `&amp;`, every `<` by `&lt;`,
every `>` by `&gt;`, with the ampersand pass first so that entities introduced
by the later passes are not double-escaped (equivalently, the three sequential
replacements act as a single character-wise substitution), leaves quotation
marks unchanged, and maps `a & b < c > d` to `a &amp; b &lt; c &gt; d`. -/
theorem escape_xml_matches_spec :
    (∀ s, escape_xml s = s.flatMap escapeCharSpec)
    ∧ escapeCharSpec '"' = ['"']
    ∧ escape_xml ("a & b < c > d".toList) = ("a &amp; b &lt; c &gt; d".toList) := by
  refine ⟨escape_xml_eq_flatMap, by decide, ?_⟩
  rw [escape_xml_eq_flatMap]
  decide

theorem one_le_length_escapeCharSpec (c : Char) :
    1 ≤ (escapeCharSpec c).length := by
  unfold escapeCharSpec
  split
  · decide
  · split
    · decide
    · split
      · decide
      · simp

theorem length_le_length_flatMap_escapeCharSpec (s : List Char) :
    s.length ≤ (s.flatMap escapeCharSpec).length := by
  induction s with
  | nil => simp
  | cons x rest ih =>
    simp only [List.flatMap_cons, List.length_append, List.length_cons]
    have := one_le_length_escapeCharSpec x
    omega

theorem length_lt_of_special (s : List Char)
    (h : ∃ c ∈ s, c = '&' ∨ c = '<' ∨ c = '>') :
    s.length < (s.flatMap escapeCharSpec).length := by
  induction s with
  | nil => simp at h
  | cons x rest ih =>
    simp only [List.flatMap_cons, List.length_append, List.length_cons]
    rcases h with ⟨c, hc, hspec⟩
    rcases List.mem_cons.mp hc with hcx | hcrest
    · subst hcx
      have h4 : 2 ≤ (escapeCharSpec c).length := by
        rcases hspec with h | h | h <;> subst h <;> decide
      have := length_le_length_flatMap_escapeCharSpec rest
      omega
    · have := ih ⟨c, hcrest, hspec⟩
      have := one_le_length_escapeCharSpec x
      omega

theorem amp_mem_flatMap_escapeCharSpec (s : List Char)
    (h : ∃ c ∈ s, c = '&' ∨ c = '<' ∨ c = '>') :
    '&' ∈ s.flatMap escapeCharSpec := by
  rcases h with ⟨c, hc, hspec⟩
  refine List.mem_flatMap.mpr ⟨c, hc, ?_⟩
  rcases hspec with h | h | h <;> subst h <;> decide

/-- C8: the escaper is not idempotent — on any input containing `&`, `<` or
`>`, escaping twice differs from escaping once (the second pass re-escapes the
ampersands of the entities introduced by the first). -/
theorem escape_xml_not_idempotent (s : List Char)
    (h : ∃ c ∈ s, c = '&' ∨ c = '<' ∨ c = '>') :
    escape_xml (escape_xml s) ≠ escape_xml s := by
  intro heq
  have hamp : '&' ∈ escape_xml s := by
    rw [escape_xml_eq_flatMap]
    exact amp_mem_flatMap_escapeCharSpec s h
  have hlt : (escape_xml s).length < (escape_xml (escape_xml s)).length := by
    rw [escape_xml_eq_flatMap (escape_xml s)]
    exact length_lt_of_special _ ⟨'&', hamp, Or.inl rfl⟩
  rw [heq] at hlt
  exact lt_irrefl _ hlt

theorem escape_xml_not_idempotent_witness :
    (∃ c ∈ ("&".toList), c = '&' ∨ c = '<' ∨ c = '>')
    ∧ escape_xml (escape_xml ("&".toList)) ≠ escape_xml ("&".toList) :=
  ⟨by decide, escape_xml_not_idempotent ("&".toList) (by decide)⟩

/-- First index at which `sub` occurs in a list (prefix-of-a-suffix search),
the search core of Python's `str.find`. -/
def findIdx (sub : List Char) : List Char → Option Nat
  | [] => if sub.isPrefixOf [] then some 0 else none
  | c :: rest =>
    if sub.isPrefixOf (c :: rest) then some 0
    else (findIdx sub rest).map (· + 1)

/-- Embedding of Python `s.find(sub, start)`: the lowest index not below
`start` at which `sub` occurs in `s`, or `-1` when there is none. -/
def strFind (s sub : List Char) (start : Nat) : Int :=
  match findIdx sub (s.drop start) with
  | some j => ((start + j : Nat) : Int)
  | none => -1

/-- `sub` occurs in `s` at position `i`. -/
def occursAt (s sub : List Char) (i : Nat) : Prop :=
  sub <+: s.drop i

instance (s sub : List Char) (i : Nat) : Decidable (occursAt s sub i) := by
  unfold occursAt
  infer_instance

theorem occursAt_cons_succ (c : Char) (s sub : List Char) (i : Nat) :
    occursAt (c :: s) sub (i + 1) ↔ occursAt s sub i := by
  simp [occursAt]

theorem not_occursAt_of_short (s sub : List Char) (i : Nat)
    (h : (s.drop i).length < sub.length) : ¬ occursAt s sub i :=
  fun hp => absurd hp.length_le (by omega)

theorem findIdx_eq_none_iff (sub s : List Char) :
    findIdx sub s = none ↔ ∀ i, ¬ occursAt s sub i := by
  induction s with
  | nil =>
    by_cases hsub : sub = []
    · subst hsub
      simp [findIdx, occursAt]
    · have hpre : sub.isPrefixOf ([] : List Char) = false := by
        cases sub with
        | nil => exact absurd rfl hsub
        | cons a as => rfl
      simp [findIdx, hpre, occursAt, List.prefix_nil, hsub]
  | cons c rest ih =>
    rw [findIdx]
    by_cases hpre : sub.isPrefixOf (c :: rest)
    · refine iff_of_false (by simp [hpre]) ?_
      intro hall
      exact hall 0 (by simpa [occursAt] using List.isPrefixOf_iff_prefix.mp hpre)
    · rw [if_neg hpre]
      constructor
      · intro hnone i
        have hrest : findIdx sub rest = none := by
          cases hfi : findIdx sub rest with
          | none => rfl
          | some j => rw [hfi] at hnone; simp at hnone
        cases i with
        | zero =>
          intro hocc
          exact hpre (List.isPrefixOf_iff_prefix.mpr (by simpa [occursAt] using hocc))
        | succ n =>
          rw [occursAt_cons_succ]
          exact (ih.mp hrest) n
      · intro hall
        have hrest : findIdx sub rest = none :=
          ih.mpr (fun i => by
            have := hall (i + 1)
            rwa [occursAt_cons_succ] at this)
        simp [hrest]

theorem findIdx_eq_some_iff (sub s : List Char) (j : Nat) :
    findIdx sub s = some j ↔
      occursAt s sub j ∧ ∀ k < j, ¬ occursAt s sub k := by
  induction s generalizing j with
  | nil =>
    by_cases hsub : sub = []
    · subst hsub
      rw [findIdx]
      simp only [List.isPrefixOf, if_pos]
      constructor
      · intro h
        have hj : j = 0 := by
          have := Option.some.inj h
          omega
        subst hj
        exact ⟨by simp [occursAt], by omega⟩
      · rintro ⟨-, hmin⟩
        have hj : j = 0 := by
          by_contra hne
          exact hmin 0 (by omega) (by simp [occursAt])
        subst hj
        rfl
    · have hpre : sub.isPrefixOf ([] : List Char) = false := by
        cases sub with
        | nil => exact absurd rfl hsub
        | cons a as => rfl
      refine iff_of_false (by simp [findIdx, hpre]) ?_
      rintro ⟨hocc, -⟩
      have : sub = [] := List.prefix_nil.mp (by simpa [occursAt] using hocc)
      exact hsub this
  | cons c rest ih =>
    rw [findIdx]
    by_cases hpre : sub.isPrefixOf (c :: rest)
    · rw [if_pos hpre]
      constructor
      · intro h
        have hj : j = 0 := (Option.some.inj h).symm
        subst hj
        refine ⟨by simpa [occursAt] using List.isPrefixOf_iff_prefix.mp hpre, by omega⟩
      · rintro ⟨-, hmin⟩
        have hj : j = 0 := by
          by_contra hne
          exact hmin 0 (by omega)
            (by simpa [occursAt] using List.isPrefixOf_iff_prefix.mp hpre)
        subst hj
        rfl
    · rw [if_neg hpre]
      cases j with
      | zero =>
        refine iff_of_false (by simp) ?_
        rintro ⟨hocc, -⟩
        exact hpre (List.isPrefixOf_iff_prefix.mpr (by simpa [occursAt] using hocc))
      | succ n =>
        constructor
        · intro h
          have hrest : findIdx sub rest = some n := by
            cases hfi : findIdx sub rest with
            | none => rw [hfi] at h; simp at h
            | some m =>
              rw [hfi] at h
              have : m + 1 = n + 1 := by simpa using h
              have hmn : m = n := by omega
              rw [hmn]
          obtain ⟨hocc, hmin⟩ := (ih n).mp hrest
          refine ⟨(occursAt_cons_succ c rest sub n).mpr hocc, ?_⟩
          intro k hk
          cases k with
          | zero =>
            intro hocc0
            exact hpre (List.isPrefixOf_iff_prefix.mpr (by simpa [occursAt] using hocc0))
          | succ m =>
            rw [occursAt_cons_succ]
            exact hmin m (by omega)
        · rintro ⟨hocc, hmin⟩
          have hocc' : occursAt rest sub n := (occursAt_cons_succ c rest sub n).mp hocc
          have hmin' : ∀ k < n, ¬ occursAt rest sub k := by
            intro k hk
            have := hmin (k + 1) (by omega)
            rwa [occursAt_cons_succ] at this
          have hrest : findIdx sub rest = some n := (ih n).mpr ⟨hocc', hmin'⟩
          simp [hrest]

theorem occursAt_drop (s sub : List Char) (b k : Nat) :
    occursAt (s.drop b) sub k ↔ occursAt s sub (b + k) := by
  unfold occursAt
  rw [List.drop_drop]

/-- Embedding of the Python slice `s[a:b]` for non-negative bounds. -/
def pySlice (s : List Char) (a b : Nat) : List Char :=
  (s.take b).drop a

/-- The region-opening token searched for in the export-functions text
(line 49 of the script). -/
def start_marker : List Char := "#Область ПрограммныйИнтерфейс".toList

/-- The region-closing token (line 50 of the script). -/
def end_marker : List Char := "#КонецОбласти".toList

/-- Lines 47–57 of the script: when the export-functions text is non-empty and
both markers are found — the start marker anywhere, the end marker at or after
the end of the start marker — append the slice from the start marker through
the end of the end marker to the module code, after a blank-line separator;
otherwise leave the module code unchanged. -/
def addExportRegion (full export_functions_code : List Char) : List Char :=
  if export_functions_code.isEmpty then full
  else
    let start_pos := strFind export_functions_code start_marker 0
    if start_pos ≥ 0 then
      let end_pos :=
        strFind export_functions_code end_marker (start_pos.toNat + start_marker.length)
      if end_pos ≥ 0 then
        full ++ ("\n\n".toList) ++
          pySlice export_functions_code start_pos.toNat (end_pos.toNat + end_marker.length)
      else full
    else full

/-- Lines 59–61 of the script: append the extensions text, when non-empty,
after a blank-line separator. -/
def addExtensions (full extensions_code : List Char) : List Char :=
  if extensions_code.isEmpty then full
  else full ++ ("\n\n".toList) ++ extensions_code

/-- Lines 43–61 of the script: the assembled module text — the primary module
code, then the export-functions region, then the extensions text. -/
def full_module_code (module_code export_functions_code extensions_code : List Char) :
    List Char :=
  addExtensions (addExportRegion module_code export_functions_code) extensions_code

theorem start_marker_length : start_marker.length = 29 := by decide

theorem end_marker_length : end_marker.length = 13 := by decide

theorem addExportRegion_of_not_found (m ef : List Char)
    (h : findIdx start_marker ef = none) : addExportRegion m ef = m := by
  unfold addExportRegion
  by_cases he : ef.isEmpty
  · simp [he]
  · have hsf : strFind ef start_marker 0 = -1 := by
      simp [strFind, List.drop_zero, h]
    simp only [he, if_false, hsf]
    norm_num

theorem addExportRegion_no_end (m ef : List Char) (i : Nat)
    (hs : findIdx start_marker ef = some i)
    (he : findIdx end_marker (ef.drop (i + start_marker.length)) = none) :
    addExportRegion m ef = m := by
  have hne : ef.isEmpty = false := by
    cases ef with
    | nil => simp [findIdx, start_marker] at hs
    | cons c rest => rfl
  have hsf : strFind ef start_marker 0 = ((i : Nat) : Int) := by
    simp [strFind, List.drop_zero, hs]
  have hef : strFind ef end_marker (i + start_marker.length) = -1 := by
    simp [strFind, he]
  unfold addExportRegion
  simp only [hne, if_false, hsf, Int.toNat_ofNat, hef]
  rw [if_pos (Int.natCast_nonneg i), if_neg (show ¬ ((-1 : Int) ≥ 0) by decide)]
  simp

theorem addExportRegion_found (m ef : List Char) (i d : Nat)
    (hs : findIdx start_marker ef = some i)
    (he : findIdx end_marker (ef.drop (i + start_marker.length)) = some d) :
    addExportRegion m ef =
      m ++ ("\n\n".toList) ++
        pySlice ef i (i + start_marker.length + d + end_marker.length) := by
  have hne : ef.isEmpty = false := by
    cases ef with
    | nil => simp [findIdx, start_marker] at hs
    | cons c rest => rfl
  have hsf : strFind ef start_marker 0 = ((i : Nat) : Int) := by
    simp [strFind, List.drop_zero, hs]
  have hef : strFind ef end_marker (i + start_marker.length) =
      ((i + start_marker.length + d : Nat) : Int) := by
    simp [strFind, he]
  unfold addExportRegion
  simp only [hne, if_false, hsf, Int.toNat_ofNat, hef]
  rw [if_pos (Int.natCast_nonneg i), if_pos (Int.natCast_nonneg _)]
  simp [Int.toNat_ofNat]

theorem addExportRegion_nil (m : List Char) : addExportRegion m [] = m := rfl

/-- C2: contribution of the secondary (export-functions) text.  With no
occurrence of the start marker the assembled text is as if the secondary text
were empty; with a start marker whose first occurrence is followed by no
end-marker occurrence, likewise (no partial region is appended); with both,
exactly the substring from the first start marker through the first subsequent
end marker — both marker literals included — is appended to the primary text
after a blank-line separator, before the extensions stage. -/
theorem export_region_cases (m ef ex : List Char) :
    ((∀ i, ¬ occursAt ef start_marker i) →
        full_module_code m ef ex = full_module_code m [] ex)
    ∧ (∀ i, (occursAt ef start_marker i ∧ ∀ k < i, ¬ occursAt ef start_marker k) →
        (∀ j, i + start_marker.length ≤ j → ¬ occursAt ef end_marker j) →
        full_module_code m ef ex = full_module_code m [] ex)
    ∧ (∀ i j, (occursAt ef start_marker i ∧ ∀ k < i, ¬ occursAt ef start_marker k) →
        (i + start_marker.length ≤ j ∧ occursAt ef end_marker j ∧
          ∀ k, i + start_marker.length ≤ k → k < j → ¬ occursAt ef end_marker k) →
        full_module_code m ef ex =
          addExtensions (m ++ ("\n\n".toList) ++ ((ef.take (j + end_marker.length)).drop i)) ex) := by
  refine ⟨?_, ?_, ?_⟩
  · intro h
    have hnone := (findIdx_eq_none_iff start_marker ef).mpr h
    unfold full_module_code
    rw [addExportRegion_of_not_found m ef hnone, addExportRegion_nil]
  · rintro i ⟨hocc, hmin⟩ hnoend
    have hs := (findIdx_eq_some_iff start_marker ef i).mpr ⟨hocc, hmin⟩
    have hnone : findIdx end_marker (ef.drop (i + start_marker.length)) = none := by
      refine (findIdx_eq_none_iff _ _).mpr ?_
      intro k
      rw [occursAt_drop]
      exact hnoend (i + start_marker.length + k) (by omega)
    unfold full_module_code
    rw [addExportRegion_no_end m ef i hs hnone, addExportRegion_nil]
  · rintro i j ⟨hocc, hmin⟩ ⟨hbase, hoccj, hminj⟩
    have hs := (findIdx_eq_some_iff start_marker ef i).mpr ⟨hocc, hmin⟩
    have hjd : i + start_marker.length + (j - (i + start_marker.length)) = j := by omega
    have hoccd : occursAt (ef.drop (i + start_marker.length)) end_marker
        (j - (i + start_marker.length)) := by
      rw [occursAt_drop, hjd]
      exact hoccj
    have hmind : ∀ k < j - (i + start_marker.length),
        ¬ occursAt (ef.drop (i + start_marker.length)) end_marker k := by
      intro k hk
      rw [occursAt_drop]
      exact hminj (i + start_marker.length + k) (by omega) (by omega)
    have he := (findIdx_eq_some_iff end_marker _ (j - (i + start_marker.length))).mpr
      ⟨hoccd, hmind⟩
    unfold full_module_code
    rw [addExportRegion_found m ef i (j - (i + start_marker.length)) hs he, hjd]
    rfl

theorem export_region_cases_witness :
    full_module_code ['M'] ("нет".toList) ['E'] = full_module_code ['M'] [] ['E']
    ∧ full_module_code ['M'] start_marker ['E'] = full_module_code ['M'] [] ['E']
    ∧ full_module_code ['M'] (start_marker ++ end_marker) ['E'] =
        addExtensions (['M'] ++ ("\n\n".toList) ++
          (((start_marker ++ end_marker).take (29 + end_marker.length)).drop 0)) ['E'] := by
  refine ⟨?_, ?_, ?_⟩
  · refine (export_region_cases ['M'] ("нет".toList) ['E']).1 ?_
    intro i
    refine not_occursAt_of_short _ _ _ ?_
    rw [List.length_drop, start_marker_length]
    have h3 : ("нет".toList).length = 3 := by decide
    omega
  · refine (export_region_cases ['M'] start_marker ['E']).2.1 0 ⟨by simp [occursAt], by omega⟩ ?_
    intro j hj
    refine not_occursAt_of_short _ _ _ ?_
    rw [List.length_drop, start_marker_length, end_marker_length]
    rw [start_marker_length] at hj
    omega
  · refine (export_region_cases ['M'] (start_marker ++ end_marker) ['E']).2.2 0 29
      ⟨by simp [occursAt], by omega⟩ ⟨by decide, by decide, ?_⟩
    intro k h1 h2
    rw [start_marker_length] at h1
    omega

/-- C10: extraction is governed by first occurrences — for a secondary text of
the form `start_marker ++ a ++ end_marker ++ b` in which no end marker occurs
before the one shown, the extracted region stops at that first end marker,
even when `b` holds a further (matching outer) end marker, as with nested
regions. -/
theorem region_stops_at_first_end (m a b ex : List Char)
    (h : ∀ k < a.length, ¬ occursAt (a ++ (end_marker ++ b)) end_marker k) :
    full_module_code m (start_marker ++ (a ++ (end_marker ++ b))) ex =
      addExtensions (m ++ ("\n\n".toList) ++ (start_marker ++ (a ++ end_marker))) ex := by
  have hs : findIdx start_marker (start_marker ++ (a ++ (end_marker ++ b))) = some 0 := by
    refine (findIdx_eq_some_iff _ _ 0).mpr ⟨?_, by omega⟩
    simpa [occursAt] using List.prefix_append start_marker (a ++ (end_marker ++ b))
  have hdrop : (start_marker ++ (a ++ (end_marker ++ b))).drop (0 + start_marker.length) =
      a ++ (end_marker ++ b) := by
    rw [Nat.zero_add]
    exact List.drop_left _ _
  have he : findIdx end_marker
      ((start_marker ++ (a ++ (end_marker ++ b))).drop (0 + start_marker.length)) =
      some a.length := by
    rw [hdrop]
    refine (findIdx_eq_some_iff _ _ _).mpr ⟨?_, h⟩
    unfold occursAt
    rw [List.drop_left]
    exact List.prefix_append _ _
  unfold full_module_code
  rw [addExportRegion_found m _ 0 a.length hs he]
  congr 1
  congr 1
  show pySlice _ 0 (0 + start_marker.length + a.length + end_marker.length) = _
  unfold pySlice
  rw [List.drop_zero, Nat.zero_add]
  have hassoc : start_marker ++ (a ++ (end_marker ++ b)) =
      (start_marker ++ (a ++ end_marker)) ++ b := by
    simp [List.append_assoc]
  rw [hassoc]
  refine List.take_left' ?_
  simp [List.length_append]
  omega

theorem region_stops_at_first_end_witness :
    full_module_code ['M']
      (start_marker ++ (("#Область Вложенная\n".toList) ++
        (end_marker ++ ("\n".toList ++ end_marker)))) ['E'] =
    addExtensions (['M'] ++ ("\n\n".toList) ++
      (start_marker ++ (("#Область Вложенная\n".toList) ++ end_marker))) ['E'] :=
  region_stops_at_first_end ['M'] ("#Область Вложенная\n".toList)
    ("\n".toList ++ end_marker) ['E'] (by decide)

/-- C7: in every assembled module text the primary content comes first, then
the part contributed by the secondary text (empty, or a blank-line separator
followed by a slice of the secondary text), then the part contributed by the
tertiary text (empty exactly when the tertiary text is empty) — for every
combination of present and absent inputs. -/
theorem assembled_order (m ef ex : List Char) :
    ∃ secondPart thirdPart : List Char,
      full_module_code m ef ex = m ++ secondPart ++ thirdPart
      ∧ (secondPart = [] ∨ ∃ i n, secondPart = ("\n\n".toList) ++ pySlice ef i n)
      ∧ thirdPart = (if ex.isEmpty then [] else ("\n\n".toList) ++ ex) := by
  have hshape : ∃ sp, addExportRegion m ef = m ++ sp
      ∧ (sp = [] ∨ ∃ i n, sp = ("\n\n".toList) ++ pySlice ef i n) := by
    cases hfi : findIdx start_marker ef with
    | none =>
      exact ⟨[], by rw [addExportRegion_of_not_found m ef hfi]; simp, Or.inl rfl⟩
    | some i =>
      cases hfe : findIdx end_marker (ef.drop (i + start_marker.length)) with
      | none =>
        exact ⟨[], by rw [addExportRegion_no_end m ef i hfi hfe]; simp, Or.inl rfl⟩
      | some d =>
        refine ⟨("\n\n".toList) ++
          pySlice ef i (i + start_marker.length + d + end_marker.length), ?_, ?_⟩
        · rw [addExportRegion_found m ef i d hfi hfe]
          simp [List.append_assoc]
        · exact Or.inr ⟨i, i + start_marker.length + d + end_marker.length, rfl⟩
  obtain ⟨sp, hEq, hsp⟩ := hshape
  refine ⟨sp, if ex.isEmpty then [] else ("\n\n".toList) ++ ex, ?_, hsp, rfl⟩
  unfold full_module_code addExtensions
  rw [hEq]
  by_cases hex : ex.isEmpty <;> simp [hex, List.append_assoc]

/-- One lowercase hexadecimal digit, as produced by `%x` formatting. -/
def hexDigit (n : Nat) : Char :=
  if n < 10 then Char.ofNat ('0'.toNat + n) else Char.ofNat ('a'.toNat + (n - 10))

/-- Fixed-width lowercase hexadecimal rendering (`%032x` uses width 32):
`w` digits, most significant first. -/
def hexDigits : Nat → Nat → List Char
  | _, 0 => []
  | n, w + 1 => hexDigits (n / 16) w ++ [hexDigit (n % 16)]

/-- The 128-bit integer underlying `uuid.uuid4()` when the generator draws the
random value `r < 2^128`: CPython's `UUID(bytes=os.urandom(16), version=4)`
clears and sets the variant bits (`int &= ~(0xc000 << 48); int |= 0x8000 << 48`)
and the version bits (`int &= ~(0xf000 << 64); int |= 0x4000 << 64`); for
values below `2^128` the two's-complement mask `~m` acts as `2^128 - 1 - m`. -/
def uuid4_int (r : Nat) : Nat :=
  Nat.lor
    (Nat.land
      (Nat.lor (Nat.land r (2 ^ 128 - 1 - (0xc000 <<< 48))) (0x8000 <<< 48))
      (2 ^ 128 - 1 - (0xf000 <<< 64)))
    (0x4000 <<< 64)

/-- `str(uuid.uuid4())`: the 32 lowercase hex digits grouped 8-4-4-4-12 with
hyphen separators. -/
def uuid_str (r : Nat) : List Char :=
  pySlice (hexDigits (uuid4_int r) 32) 0 8 ++ ['-'] ++
  pySlice (hexDigits (uuid4_int r) 32) 8 12 ++ ['-'] ++
  pySlice (hexDigits (uuid4_int r) 32) 12 16 ++ ['-'] ++
  pySlice (hexDigits (uuid4_int r) 32) 16 20 ++ ['-'] ++
  (hexDigits (uuid4_int r) 32).drop 20

/-- Line 67 of the script: `str(uuid.uuid4()).upper().replace('-', '')`. -/
def processing_uuid (r : Nat) : List Char :=
  pyReplace ['-'] [] ((uuid_str r).map Char.toUpper)

theorem hexDigits_length (n w : Nat) : (hexDigits n w).length = w := by
  induction w generalizing n with
  | zero => rfl
  | succ k ih => simp [hexDigits, ih]

theorem hexDigit_mem (n : Nat) (h : n < 16) :
    hexDigit n ∈ ("0123456789abcdef".toList) := by
  interval_cases n <;> decide

theorem hexDigits_mem (n w : Nat) :
    ∀ c ∈ hexDigits n w, c ∈ ("0123456789abcdef".toList) := by
  induction w generalizing n with
  | zero => simp [hexDigits]
  | succ k ih =>
    intro c hc
    rw [hexDigits] at hc
    rcases List.mem_append.mp hc with h1 | h2
    · exact ih (n / 16) c h1
    · have hc2 : c = hexDigit (n % 16) := by simpa using h2
      rw [hc2]
      exact hexDigit_mem _ (Nat.mod_lt _ (by norm_num))

theorem toUpper_mem_upperHex (c : Char) (h : c ∈ ("0123456789abcdef".toList)) :
    c.toUpper ∈ ("0123456789ABCDEF".toList) := by
  fin_cases h <;> decide

theorem upperHex_ne_dash (c : Char) (h : c ∈ ("0123456789ABCDEF".toList)) :
    c ≠ '-' := by
  fin_cases h <;> decide

theorem flatMap_dash_id (l : List Char) (h : ∀ c ∈ l, c ≠ '-') :
    l.flatMap (fun c => if c = '-' then [] else [c]) = l := by
  induction l with
  | nil => simp
  | cons x rest ih =>
    simp only [List.flatMap_cons]
    rw [if_neg (h x (List.mem_cons_self x rest)),
      ih (fun c hc => h c (List.mem_cons_of_mem x hc))]
    rfl

theorem mem_of_mem_pySlice (l : List Char) (a b : Nat) (c : Char)
    (h : c ∈ pySlice l a b) : c ∈ l :=
  List.mem_of_mem_take (List.mem_of_mem_drop h)

theorem slices_assemble (l : List Char) :
    l.take 8 ++ ((l.drop 8).take 4 ++ ((l.drop 12).take 4 ++
      ((l.drop 16).take 4 ++ l.drop 20))) = l := by
  have h16 : (l.drop 16).take 4 ++ (l.drop 16).drop 4 = l.drop 16 :=
    List.take_append_drop 4 (l.drop 16)
  have h12 : (l.drop 12).take 4 ++ (l.drop 12).drop 4 = l.drop 12 :=
    List.take_append_drop 4 (l.drop 12)
  have h8 : (l.drop 8).take 4 ++ (l.drop 8).drop 4 = l.drop 8 :=
    List.take_append_drop 4 (l.drop 8)
  have d16 : (l.drop 16).drop 4 = l.drop 20 := by rw [List.drop_drop]
  have d12 : (l.drop 12).drop 4 = l.drop 16 := by rw [List.drop_drop]
  have d8 : (l.drop 8).drop 4 = l.drop 12 := by rw [List.drop_drop]
  rw [d16] at h16
  rw [d12] at h12
  rw [d8] at h8
  rw [h16, h12, h8, List.take_append_drop]

theorem pySlice_zero_eight (l : List Char) : pySlice l 0 8 = l.take 8 := by
  unfold pySlice
  rw [List.drop_zero]

theorem pySlice_mid (l : List Char) (a : Nat) :
    pySlice l a (a + 4) = (l.drop a).take 4 := by
  unfold pySlice
  exact (List.take_drop a 4 l).symm

theorem processing_uuid_eq_map (r : Nat) :
    processing_uuid r = (hexDigits (uuid4_int r) 32).map Char.toUpper := by
  unfold processing_uuid uuid_str
  rw [pyReplace_single]
  have e8 : pySlice (hexDigits (uuid4_int r) 32) 8 12 =
      ((hexDigits (uuid4_int r) 32).drop 8).take 4 := by
    have := pySlice_mid (hexDigits (uuid4_int r) 32) 8
    norm_num at this
    exact this
  have e12 : pySlice (hexDigits (uuid4_int r) 32) 12 16 =
      ((hexDigits (uuid4_int r) 32).drop 12).take 4 := by
    have := pySlice_mid (hexDigits (uuid4_int r) 32) 12
    norm_num at this
    exact this
  have e16 : pySlice (hexDigits (uuid4_int r) 32) 16 20 =
      ((hexDigits (uuid4_int r) 32).drop 16).take 4 := by
    have := pySlice_mid (hexDigits (uuid4_int r) 32) 16
    norm_num at this
    exact this
  rw [pySlice_zero_eight, e8, e12, e16]
  set l := hexDigits (uuid4_int r) 32 with hl
  have hmem : ∀ c ∈ l, c ∈ ("0123456789abcdef".toList) := by
    rw [hl]
    exact hexDigits_mem _ _
  have hnodash : ∀ part : List Char, (∀ c ∈ part, c ∈ l) →
      (part.map Char.toUpper).flatMap (fun c => if c = '-' then [] else [c]) =
        part.map Char.toUpper := by
    intro part hpart
    refine flatMap_dash_id _ ?_
    intro c hc
    obtain ⟨x, hx, hcx⟩ := List.mem_map.mp hc
    rw [← hcx]
    exact upperHex_ne_dash _ (toUpper_mem_upperHex x (hmem x (hpart x hx)))
  have hdashchar : Char.toUpper '-' = '-' := by decide
  have hdash : ((['-'] : List Char).map Char.toUpper).flatMap
      (fun c => if c = '-' then [] else [c]) = [] := by decide
  simp only [List.map_append, List.flatMap_append, hdash,
    hnodash (l.take 8) (fun c hc => List.mem_of_mem_take hc),
    hnodash ((l.drop 8).take 4)
      (fun c hc => List.mem_of_mem_drop (List.mem_of_mem_take hc)),
    hnodash ((l.drop 12).take 4)
      (fun c hc => List.mem_of_mem_drop (List.mem_of_mem_take hc)),
    hnodash ((l.drop 16).take 4)
      (fun c hc => List.mem_of_mem_drop (List.mem_of_mem_take hc)),
    hnodash (l.drop 20) (fun c hc => List.mem_of_mem_drop hc),
    List.append_nil, List.nil_append]
  rw [← List.map_append, ← List.map_append, ← List.map_append, ← List.map_append]
  have hassoc : l.take 8 ++ (l.drop 8).take 4 ++ (l.drop 12).take 4 ++
      (l.drop 16).take 4 ++ l.drop 20 = l := by
    simp only [List.append_assoc]
    exact slices_assemble l
  rw [hassoc]

/-- C4: for every 128-bit value the generator may draw, the processing
identifier is exactly 32 characters, each an uppercase hexadecimal digit
(in particular no hyphen separator remains). -/
theorem processing_uuid_format (r : Nat) (h : r < 2 ^ 128) :
    (processing_uuid r).length = 32
    ∧ ∀ c ∈ processing_uuid r, c ∈ ("0123456789ABCDEF".toList) := by
  clear h
  rw [processing_uuid_eq_map]
  constructor
  · rw [List.length_map, hexDigits_length]
  · intro c hc
    obtain ⟨x, hx, hcx⟩ := List.mem_map.mp hc
    rw [← hcx]
    exact toUpper_mem_upperHex x (hexDigits_mem _ _ x hx)

theorem processing_uuid_format_witness :
    (0 : Nat) < 2 ^ 128
    ∧ ((processing_uuid 0).length = 32
        ∧ ∀ c ∈ processing_uuid 0, c ∈ ("0123456789ABCDEF".toList)) :=
  ⟨by norm_num, processing_uuid_format 0 (by norm_num)⟩

/-- The XML template before the identifier interpolation point (line 70 on). -/
def xmlPart1 : List Char := "<?xml version=\"1.0\" encoding=\"UTF-8\"?>\n<MetaDataObject xmlns=\"http://v8.1c.ru/8.3/MDClasses\" xmlns:app=\"http://v8.1c.ru/8.2/managed-application/core\" xmlns:cfg=\"http://v8.1c.ru/8.1/data/enterprise/current-config\" xmlns:cmi=\"http://v8.1c.ru/8.2/managed-application/cmi\" xmlns:ent=\"http://v8.1c.ru/8.1/data/enterprise/current-config\" xmlns:lf=\"http://v8.1c.ru/8.2/managed-application/logform\" xmlns:style=\"http://v8.1c.ru/8.1/data/ui/style\" xmlns:sys=\"http://v8.1c.ru/8.1/data/ui/fonts/system\" xmlns:v8=\"http://v8.1c.ru/8.1/data/core\" xmlns:v8ui=\"http://v8.1c.ru/8.1/data/ui\" xmlns:web=\"http://v8.1c.ru/8.1/data/ui/colors/web\" xmlns:win=\"http://v8.1c.ru/8.1/data/ui/colors/windows\" xmlns:xen=\"http://v8.1c.ru/8.3/xcf/enums\" xmlns:xpr=\"http://v8.1c.ru/8.3/xcf/predef\" xmlns:xr=\"http://v8.1c.ru/8.3/xcf/readable\" xmlns:xs=\"http://www.w3.org/2001/XMLSchema\" xmlns:xsi=\"http://www.w3.org/2001/XMLSchema-instance\" version=\"2.12\">\n  <DataProcessor>\n    <uuid>".toList

/-- The XML template between the identifier and the module text. -/
def xmlPart2 : List Char := "</uuid>\n    <name>ВыгрузкаДанныхВСервис</name>\n    <synonym>\n      <key>ru</key>\n      <value>Выгрузка данных в сервис нормализации</value>\n    </synonym>\n    <comment>Обработка для выгрузки данных из 1С в сервис нормализации и анализа через HTTP</comment>\n    <module>\n      <text><![CDATA[".toList

/-- The XML template after the module text, the fixed form module included. -/
def xmlPart3 : List Char := "]]></text>\n    </module>\n    <forms>\n      <form>\n        <name>Форма</name>\n        <synonym>\n          <key>ru</key>\n          <value>Форма</value>\n        </synonym>\n        <module>\n          <text><![CDATA[&НаКлиенте\nПроцедура ПриСозданииНаСервере(Отказ, СтандартнаяОбработка)\n\t\n\t// Устанавливаем значения по умолчанию\n\tЕсли Объект.АдресСервера = \"\" Тогда\n\t\tОбъект.АдресСервера = \"http://localhost:9999\";\n\tКонецЕсли;\n\t\n\tЕсли Объект.РазмерПакета = 0 Тогда\n\t\tОбъект.РазмерПакета = 50;\n\tКонецЕсли;\n\t\n\tЕсли Объект.ИспользоватьПакетнуюВыгрузку = Неопределено Тогда\n\t\tОбъект.ИспользоватьПакетнуюВыгрузку = Истина;\n\tКонецЕсли;\n\t\nКонецПроцедуры]]></text>\n        </module>\n      </form>\n    </forms>\n  </DataProcessor>\n</MetaDataObject>".toList

/-- Lines 70–112 of the script: the rendered document — the fixed template
with the generated identifier and the module text interpolated.  Note the
template interpolates `full_module_code`, the unescaped assembled text. -/
def xml_content (processing_uuid full_module_code : List Char) : List Char :=
  xmlPart1 ++ processing_uuid ++ xmlPart2 ++ full_module_code ++ xmlPart3

/-- `read_file_content` (lines 20–27) over an abstract filesystem `fs` mapping
a path to content or to a failure message: return the file's text, or on any
failure print a diagnostic and return the empty string.  The second component
is the list of printed diagnostic lines. -/
def read_file_content (fs : List Char → Except (List Char) (List Char))
    (filepath : List Char) : List Char × List (List Char) :=
  match fs filepath with
  | Except.ok content => (content, [])
  | Except.error e =>
      ([], [("Ошибка чтения файла ".toList) ++ filepath ++ (": ".toList) ++ e])

/-- What a run leaves behind: the document written, its path, and the
three-line console summary printed after writing. -/
structure RunResult where
  xml : List Char
  output_file : List Char
  summary : List (List Char)

/-- The pure core of `create_1c_processing_xml` (lines 29–121), over the
abstract filesystem and the generator's random draw `r`.  Line 64's
`escaped_module_code` is computed exactly as in the source — and, as in the
source, never used: the template receives `full`. -/
def create_1c_processing_xml (fs : List Char → Except (List Char) (List Char))
    (r : Nat) : RunResult :=
  let module_code := (read_file_content fs ("1c_processing/Module/Module.bsl".toList)).1
  let extensions_code := (read_file_content fs ("1c_module_extensions.bsl".toList)).1
  let export_functions_code := (read_file_content fs ("1c_export_functions.txt".toList)).1
  let full := full_module_code module_code export_functions_code extensions_code
  let escaped_module_code := escape_xml full
  let uuid := processing_uuid r
  { xml := xml_content uuid full
    output_file := "1c_processing_export.xml".toList
    summary :=
      [ ("XML файл обработки создан: ".toList) ++ ("1c_processing_export.xml".toList)
      , ("UUID обработки: ".toList) ++ uuid
      , ("Размер модуля: ".toList) ++ (Nat.repr full.length).toList ++ (" символов".toList) ] }

/-- The content of the first character-data block of a document: the text
between the first CDATA opener and the first subsequent CDATA closer. -/
def extract_cdata (doc : List Char) : Option (List Char) :=
  match findIdx ("<![CDATA[".toList) doc with
  | none => none
  | some i =>
    match findIdx ("]]>".toList) (doc.drop (i + ("<![CDATA[".toList).length)) with
    | none => none
    | some d => some ((doc.drop (i + ("<![CDATA[".toList).length)).take d)

/-- C6: on any read or decoding failure the reader reports a diagnostic naming
the path and the error, and returns the empty string — the fragment reads as
absent and the failure is not propagated. -/
theorem read_file_content_failure (fs : List Char → Except (List Char) (List Char))
    (filepath e : List Char) (h : fs filepath = Except.error e) :
    read_file_content fs filepath =
      ([], [("Ошибка чтения файла ".toList) ++ filepath ++ (": ".toList) ++ e]) := by
  unfold read_file_content
  rw [h]

theorem read_file_content_failure_witness :
    ((fun _ : List Char =>
        (Except.error ("boom".toList) : Except (List Char) (List Char))) ("p".toList) =
      Except.error ("boom".toList))
    ∧ read_file_content
        (fun _ => Except.error ("boom".toList)) ("p".toList) =
      ([], [("Ошибка чтения файла ".toList) ++ ("p".toList) ++ (": ".toList) ++
        ("boom".toList)]) :=
  ⟨rfl, read_file_content_failure _ _ _ rfl⟩

/-- Accumulator form of `findIdx`, used to evaluate concrete searches. -/
def findIdxAux (sub : List Char) : Nat → List Char → Option Nat
  | i, [] => if sub.isPrefixOf [] then some i else none
  | i, c :: rest =>
    if sub.isPrefixOf (c :: rest) then some i else findIdxAux sub (i + 1) rest

theorem findIdxAux_eq (sub : List Char) (i : Nat) (s : List Char) :
    findIdxAux sub i s = (findIdx sub s).map (· + i) := by
  induction s generalizing i with
  | nil =>
    by_cases h : sub.isPrefixOf ([] : List Char) <;> simp [findIdxAux, findIdx, h]
  | cons c rest ih =>
    by_cases h : sub.isPrefixOf (c :: rest)
    · simp [findIdxAux, findIdx, h]
    · rw [findIdxAux, findIdx, if_neg h, if_neg h, ih (i + 1)]
      cases hfi : findIdx sub rest with
      | none => simp
      | some a => simp; omega

theorem findIdx_eq_findIdxAux (sub s : List Char) :
    findIdx sub s = findIdxAux sub 0 s := by
  rw [findIdxAux_eq]
  cases findIdx sub s <;> simp

theorem extract_cdata_eval (doc : List Char) :
    extract_cdata doc =
      (match findIdxAux ("<![CDATA[".toList) 0 doc with
      | none => none
      | some i =>
        match findIdxAux ("]]>".toList) 0 (doc.drop (i + ("<![CDATA[".toList).length)) with
        | none => none
        | some d => some ((doc.drop (i + ("<![CDATA[".toList).length)).take d)) := by
  unfold extract_cdata
  simp only [findIdx_eq_findIdxAux]

theorem uuid0_concrete :
    processing_uuid 0 = ("00000000000040008000000000000000".toList) := by
  rw [processing_uuid_eq_map]
  decide

/-- C9: the console summary printed after writing is exactly three lines — the
output path, the generated identifier, and the character length of the
assembled module text measured before XML escaping; concretely, for primary
text `a & b` the reported length is the pre-escape 5, while the escaped text
has length 9. -/
theorem console_summary_three_lines :
    (∀ fs r, (create_1c_processing_xml fs r).summary =
      [ ("XML файл обработки создан: ".toList) ++
          (create_1c_processing_xml fs r).output_file
      , ("UUID обработки: ".toList) ++ processing_uuid r
      , ("Размер модуля: ".toList) ++
          (Nat.repr (full_module_code
            ((read_file_content fs ("1c_processing/Module/Module.bsl".toList)).1)
            ((read_file_content fs ("1c_export_functions.txt".toList)).1)
            ((read_file_content fs ("1c_module_extensions.bsl".toList)).1)).length).toList ++
          (" символов".toList) ])
    ∧ (create_1c_processing_xml
        (fun p => if p = ("1c_processing/Module/Module.bsl".toList)
          then Except.ok ("a & b".toList) else Except.error []) 0).summary.getLast? =
        some ("Размер модуля: 5 символов".toList)
    ∧ (escape_xml ("a & b".toList)).length = 9 := by
  refine ⟨fun fs r => rfl, by decide, ?_⟩
  rw [escape_xml_eq_flatMap]
  decide

set_option maxRecDepth 40000 in
set_option maxHeartbeats 4000000 in
/-- C5: when the secondary and tertiary inputs read as empty the assembled
module text equals the primary content exactly, with no separator; in
particular with primary text `X` the run's document carries exactly `X` in its
module character-data block and the summary reports module length 1. -/
theorem primary_only_assembly :
    (∀ m, full_module_code m [] [] = m)
    ∧ extract_cdata ((create_1c_processing_xml
        (fun p => if p = ("1c_processing/Module/Module.bsl".toList)
          then Except.ok ("X".toList) else Except.error []) 0).xml) =
        some ("X".toList)
    ∧ (full_module_code ("X".toList) [] []).length = 1
    ∧ (create_1c_processing_xml
        (fun p => if p = ("1c_processing/Module/Module.bsl".toList)
          then Except.ok ("X".toList) else Except.error []) 0).summary.getLast? =
        some ("Размер модуля: 1 символов".toList) := by
  refine ⟨fun m => rfl, ?_, rfl, by decide⟩
  have hx : (create_1c_processing_xml
      (fun p => if p = ("1c_processing/Module/Module.bsl".toList)
        then Except.ok ("X".toList) else Except.error []) 0).xml =
      xml_content (processing_uuid 0) (full_module_code ("X".toList) [] []) := rfl
  rw [hx, uuid0_concrete, extract_cdata_eval]
  decide

set_option maxRecDepth 40000 in
set_option maxHeartbeats 4000000 in
/-- C1 is refuted by the code: line 64 computes `escaped_module_code =
escape_xml(full_module_code)`, but the template at line 81 interpolates the
raw `full_module_code`, so the character-data block holds the unescaped
assembled text whenever escaping would change it — here the primary text
`a & b` appears verbatim in the document while its escaped form would be
`a &amp; b`. -/
theorem cdata_holds_unescaped_text :
    extract_cdata ((create_1c_processing_xml
        (fun p => if p = ("1c_processing/Module/Module.bsl".toList)
          then Except.ok ("a & b".toList) else Except.error []) 0).xml) =
      some ("a & b".toList)
    ∧ escape_xml ("a & b".toList) = ("a &amp; b".toList)
    ∧ ("a & b".toList) ≠ ("a &amp; b".toList) := by
  refine ⟨?_, ?_, by decide⟩
  · have hx : (create_1c_processing_xml
        (fun p => if p = ("1c_processing/Module/Module.bsl".toList)
          then Except.ok ("a & b".toList) else Except.error []) 0).xml =
        xml_content (processing_uuid 0) (full_module_code ("a & b".toList) [] []) := rfl
    rw [hx, uuid0_concrete, extract_cdata_eval]
    decide
  · rw [escape_xml_eq_flatMap]
    decide
